import Mathlib

/-!
Verification of the cut-interval model, real/effective time mapping,
dual-buffer playback scheduler and export/download endpoints of a
browser video editor.  Times are modelled as rationals; the JavaScript
in-place stable sort by start time is modelled by `List.insertionSort`
(also stable), and best-effort media seeks are modelled as succeeding.
-/

/-- A cut interval: `s` start, `e` end, in seconds of real (original) time.
Mirrors `interface Cut { s: number; e: number }` in `VideoEditor.tsx`. -/
structure Cut where
  s : ℚ
  e : ℚ
deriving DecidableEq, Repr

/-- Merge tolerance used by `normalizeCuts` (`1e-3` in the source). -/
def tol : ℚ := 1 / 1000

/-- Sort order used by `arr.sort((a, b) => a.s - b.s)`: ascending by start. -/
def cutLE (a b : Cut) : Prop := a.s ≤ b.s

instance : DecidableRel cutLE := fun a b => inferInstanceAs (Decidable (a.s ≤ b.s))

instance : IsTotal Cut cutLE := ⟨fun a b => le_total a.s b.s⟩

instance : IsTrans Cut cutLE := ⟨fun _ _ _ h h₂ => le_trans h h₂⟩

/-- The stable ascending-by-start sort performed at the top of `normalizeCuts`. -/
def sortCuts (l : List Cut) : List Cut := List.insertionSort cutLE l

/-- The single merge pass of `normalizeCuts`: walk the sorted list carrying a
running interval `cur`; if the next cut starts within `tol` of the running
end, extend the running end by `max`; otherwise flush `cur` and restart. -/
def mergeWalk : Cut → List Cut → List Cut
  | cur, [] => [cur]
  | cur, next :: rest =>
    if next.s - tol ≤ cur.e then mergeWalk ⟨cur.s, max cur.e next.e⟩ rest
    else cur :: mergeWalk next rest

/-- `normalizeCuts` from `VideoEditor.tsx`: sort ascending by start, then merge
overlapping or nearly-touching (within `1e-3`) cuts in one pass. -/
def normalizeCuts (l : List Cut) : List Cut :=
  match sortCuts l with
  | [] => []
  | c :: rest => mergeWalk c rest

/-- `totalCutLen`: `cuts.reduce((a, c) => a + (c.e - c.s), 0)`. -/
def totalCutLen (cuts : List Cut) : ℚ := cuts.foldl (fun a c => a + (c.e - c.s)) 0

/-- `effDurationAfterCuts`: `Math.max(0, duration - totalCutLen())`. -/
def effDurationAfterCuts (duration : ℚ) (cuts : List Cut) : ℚ :=
  max 0 (duration - totalCutLen cuts)

/-- Loop body of `realToPlayerEff`, with the accumulated `shift` explicit. -/
def realToPlayerEffAux : List Cut → ℚ → ℚ → ℚ
  | [], t, shift => t - shift
  | c :: rest, t, shift =>
    if c.e ≤ t then realToPlayerEffAux rest t (shift + (c.e - c.s))
    else if c.s < t then c.s - shift
    else t - shift

/-- `realToPlayerEff` from `VideoEditor.tsx`: real time to player-effective
time over the sorted cut set. -/
def realToPlayerEff (cuts : List Cut) (t : ℚ) : ℚ := realToPlayerEffAux cuts t 0

/-- Loop body of `playerEffToReal`, with the accumulated `shift` explicit. -/
def playerEffToRealAux : List Cut → ℚ → ℚ → ℚ
  | [], te, shift => te + shift
  | c :: rest, te, shift =>
    if c.s - shift ≤ te then playerEffToRealAux rest te (shift + (c.e - c.s))
    else te + shift

/-- `playerEffToReal` from `VideoEditor.tsx`: player-effective time back to
real time. -/
def playerEffToReal (cuts : List Cut) (te : ℚ) : ℚ := playerEffToRealAux cuts te 0

/-- `nextCutAfter` from `VideoEditor.tsx`: first cut whose end is still ahead
of `t`, whether not yet started or currently inside. -/
def nextCutAfter : List Cut → ℚ → Option Cut
  | [], _ => none
  | c :: rest, t =>
    if t < c.e then
      if t < c.s then some c
      else if c.s ≤ t ∧ t < c.e then some c
      else nextCutAfter rest t
    else nextCutAfter rest t

/-- Total length of the cuts that end at or before `t` (the shift that
`realToPlayerEff` accumulates before reaching `t`). -/
def shiftBefore (cuts : List Cut) (t : ℚ) : ℚ :=
  totalCutLen (cuts.filter (fun c => decide (c.e ≤ t)))

/-- One user insertion as performed by `addCut`: append the new interval and
re-run `normalizeCuts`. -/
def insertCut (cuts : List Cut) (x : Cut) : List Cut := normalizeCuts (cuts ++ [x])

/-- Iterated insertion of a whole list of cuts, one `addCut` at a time,
starting from the empty set. -/
def foldInsert (l : List Cut) : List Cut := l.foldl insertCut []

/-- `disjFromB L l`: `l` is sorted by start, each interval is non-degenerate
(`s < e`), consecutive intervals are disjoint (`e ≤ next.s`), and every start
is at least `L`. -/
def disjFromB : ℚ → List Cut → Bool
  | _, [] => true
  | L, c :: rest => decide (L ≤ c.s) && decide (c.s < c.e) && disjFromB c.e rest

/-- Propositional form of `disjFromB`. -/
def DisjFrom (L : ℚ) (l : List Cut) : Prop := disjFromB L l = true

/-- A normalized cut set in the sense of the specification: sorted, pairwise
disjoint, every interval inside `[0, ∞)` with `s < e`. -/
def Normalized (l : List Cut) : Prop := DisjFrom 0 l

/-- `sepFromB L l`: like `disjFromB`, but consecutive intervals are separated
by strictly more than `tol`, and starts strictly exceed `L`. This is the shape
`normalizeCuts` guarantees below its first interval. -/
def sepFromB : ℚ → List Cut → Bool
  | _, [] => true
  | L, c :: rest => decide (L < c.s) && decide (c.s < c.e) && sepFromB (c.e + tol) rest

/-- Propositional form of `sepFromB`. -/
def SepFrom (L : ℚ) (l : List Cut) : Prop := sepFromB L l = true

/-- Shape of a `normalizeCuts` output: non-degenerate intervals, consecutive
ones separated by strictly more than `tol`. -/
def SepLow : List Cut → Prop
  | [] => True
  | c :: rest => c.s < c.e ∧ SepFrom (c.e + tol) rest

/-- The `tol`-fattened closed span of one cut. Two cuts are merged by
`normalizeCuts` exactly when their fattened spans meet. -/
def fat (c : Cut) (x : ℚ) : Prop := c.s ≤ x ∧ x ≤ c.e + tol

/-- A point is covered by the fattened span of some cut in the list. -/
def fatCover (l : List Cut) (x : ℚ) : Prop := ∃ c ∈ l, fat c x

instance (L : ℚ) (l : List Cut) : Decidable (DisjFrom L l) :=
  inferInstanceAs (Decidable (disjFromB L l = true))

instance (l : List Cut) : Decidable (Normalized l) :=
  inferInstanceAs (Decidable (DisjFrom 0 l))

instance (L : ℚ) (l : List Cut) : Decidable (SepFrom L l) :=
  inferInstanceAs (Decidable (sepFromB L l = true))

theorem disjFrom_nil (L : ℚ) : DisjFrom L [] := rfl

theorem disjFrom_cons {L : ℚ} {c : Cut} {rest : List Cut} :
    DisjFrom L (c :: rest) ↔ L ≤ c.s ∧ c.s < c.e ∧ DisjFrom c.e rest := by
  simp [DisjFrom, disjFromB, Bool.and_eq_true, decide_eq_true_eq, and_assoc]

theorem sepFrom_nil (L : ℚ) : SepFrom L [] := rfl

theorem sepFrom_cons {L : ℚ} {c : Cut} {rest : List Cut} :
    SepFrom L (c :: rest) ↔ L < c.s ∧ c.s < c.e ∧ SepFrom (c.e + tol) rest := by
  simp [SepFrom, sepFromB, Bool.and_eq_true, decide_eq_true_eq, and_assoc]

theorem fatCover_nil (x : ℚ) : ¬ fatCover [] x := by
  simp [fatCover]

theorem fatCover_cons {c : Cut} {l : List Cut} {x : ℚ} :
    fatCover (c :: l) x ↔ fat c x ∨ fatCover l x := by
  simp [fatCover]

theorem fatCover_append {a b : List Cut} {x : ℚ} :
    fatCover (a ++ b) x ↔ fatCover a x ∨ fatCover b x := by
  simp [fatCover, or_and_right, exists_or]

theorem fatCover_perm {a b : List Cut} (h : a.Perm b) (x : ℚ) :
    fatCover a x ↔ fatCover b x := by
  simp only [fatCover]
  constructor
  · rintro ⟨c, hc, hf⟩; exact ⟨c, h.mem_iff.mp hc, hf⟩
  · rintro ⟨c, hc, hf⟩; exact ⟨c, h.mem_iff.mpr hc, hf⟩

theorem tol_pos : 0 < tol := by norm_num [tol]

/-- Every member of a `DisjFrom` chain starts at or after the lower bound. -/
theorem disjFrom_mem_lb {L : ℚ} {l : List Cut} (h : DisjFrom L l) :
    ∀ c ∈ l, L ≤ c.s ∧ c.s < c.e := by
  induction l generalizing L with
  | nil => intro c hc; cases hc
  | cons d rest ih =>
    rcases disjFrom_cons.mp h with ⟨h1, h2, h3⟩
    intro c hc
    rcases List.mem_cons.mp hc with rfl | hc
    · exact ⟨h1, h2⟩
    · rcases ih h3 c hc with ⟨hL, hse⟩
      exact ⟨le_trans h1 (le_trans (le_of_lt h2) hL), hse⟩

/-- Every member of a `SepFrom` chain starts strictly after the lower bound. -/
theorem sepFrom_mem_lb {L : ℚ} {l : List Cut} (h : SepFrom L l) :
    ∀ c ∈ l, L < c.s ∧ c.s < c.e := by
  induction l generalizing L with
  | nil => intro c hc; cases hc
  | cons d rest ih =>
    rcases sepFrom_cons.mp h with ⟨h1, h2, h3⟩
    intro c hc
    rcases List.mem_cons.mp hc with rfl | hc
    · exact ⟨h1, h2⟩
    · rcases ih h3 c hc with ⟨hL, hse⟩
      refine ⟨lt_trans h1 (lt_of_lt_of_le h2 ?_), hse⟩
      exact le_trans (le_add_of_nonneg_right (le_of_lt tol_pos)) (le_of_lt hL)

theorem sepFrom_weaken {L L' : ℚ} {l : List Cut} (hle : L' ≤ L) (h : SepFrom L l) :
    SepFrom L' l := by
  cases l with
  | nil => exact sepFrom_nil L'
  | cons c rest =>
    rcases sepFrom_cons.mp h with ⟨h1, h2, h3⟩
    exact sepFrom_cons.mpr ⟨lt_of_le_of_lt hle h1, h2, h3⟩

theorem sepFrom_sepLow {L : ℚ} {l : List Cut} (h : SepFrom L l) : SepLow l := by
  cases l with
  | nil => trivial
  | cons c rest =>
    rcases sepFrom_cons.mp h with ⟨_, h2, h3⟩
    exact ⟨h2, h3⟩

/-- `SepLow` members are non-degenerate. -/
theorem sepLow_mem {l : List Cut} (h : SepLow l) : ∀ c ∈ l, c.s < c.e := by
  cases l with
  | nil => intro c hc; cases hc
  | cons d rest =>
    rcases h with ⟨h1, h2⟩
    intro c hc
    rcases List.mem_cons.mp hc with rfl | hc
    · exact h1
    · exact (sepFrom_mem_lb h2 c hc).2

/-- A `SepLow` list is a `DisjFrom` chain below its own head. -/
theorem sepLow_disjFrom {L : ℚ} {l : List Cut} (h : SepLow l)
    (hL : ∀ c ∈ l, L ≤ c.s) : DisjFrom L l := by
  induction l generalizing L with
  | nil => exact disjFrom_nil L
  | cons c rest ih =>
    rcases h with ⟨h1, h2⟩
    refine disjFrom_cons.mpr ⟨hL c (List.mem_cons_self c rest), h1, ih (sepFrom_sepLow h2) ?_⟩
    intro d hd
    have := (sepFrom_mem_lb h2 d hd).1
    have htol : c.e ≤ c.e + tol := le_add_of_nonneg_right (le_of_lt tol_pos)
    exact le_trans htol (le_of_lt this)

theorem totalCutLen_nil : totalCutLen [] = 0 := rfl

theorem totalCutLen_foldl (l : List Cut) (x : ℚ) :
    l.foldl (fun a c => a + (c.e - c.s)) x = x + totalCutLen l := by
  induction l generalizing x with
  | nil => simp [totalCutLen]
  | cons c rest ih =>
    show List.foldl _ (x + (c.e - c.s)) rest = _
    rw [ih]
    show _ = x + List.foldl _ (0 + (c.e - c.s)) rest
    rw [ih (0 + (c.e - c.s))]
    ring

theorem totalCutLen_cons (c : Cut) (l : List Cut) :
    totalCutLen (c :: l) = (c.e - c.s) + totalCutLen l := by
  show List.foldl _ (0 + (c.e - c.s)) l = _
  rw [totalCutLen_foldl]
  ring

theorem totalCutLen_append (a b : List Cut) :
    totalCutLen (a ++ b) = totalCutLen a + totalCutLen b := by
  induction a with
  | nil => simp [totalCutLen_nil]
  | cons c rest ih => simp [totalCutLen_cons, ih]; ring

theorem totalCutLen_nonneg {l : List Cut} (h : ∀ c ∈ l, c.s < c.e) :
    0 ≤ totalCutLen l := by
  induction l with
  | nil => simp [totalCutLen_nil]
  | cons c rest ih =>
    rw [totalCutLen_cons]
    have h1 := h c (List.mem_cons_self c rest)
    have h2 := ih (fun d hd => h d (List.mem_cons_of_mem c hd))
    linarith

/-- `shiftBefore` of a cons: count the head cut iff it ends at or before `t`. -/
theorem shiftBefore_cons (c : Cut) (l : List Cut) (t : ℚ) :
    shiftBefore (c :: l) t =
      if c.e ≤ t then (c.e - c.s) + shiftBefore l t else shiftBefore l t := by
  by_cases h : c.e ≤ t
  · simp [shiftBefore, List.filter_cons, h, totalCutLen_cons]
  · simp [shiftBefore, List.filter_cons, h]

theorem shiftBefore_eq_zero {l : List Cut} {t : ℚ} (h : ∀ c ∈ l, t < c.e) :
    shiftBefore l t = 0 := by
  have : l.filter (fun c => decide (c.e ≤ t)) = [] := by
    rw [List.filter_eq_nil_iff]
    intro c hc
    simp only [decide_eq_true_eq]
    exact not_le_of_lt (h c hc)
  simp [shiftBefore, this, totalCutLen_nil]

/-- Cuts after `c` in a sorted disjoint chain start at or after `c.e`; cuts
before it end at or before `c.s`. -/
theorem disjFrom_trichotomy {L : ℚ} {l : List Cut} (h : DisjFrom L l) {c : Cut}
    (hc : c ∈ l) : ∀ d ∈ l, d = c ∨ d.e ≤ c.s ∨ c.e ≤ d.s := by
  induction l generalizing L with
  | nil => cases hc
  | cons a rest ih =>
    rcases disjFrom_cons.mp h with ⟨_, _, h3⟩
    intro d hd
    rcases List.mem_cons.mp hc with rfl | hc₂
    · rcases List.mem_cons.mp hd with rfl | hd₂
      · exact Or.inl rfl
      · exact Or.inr (Or.inr (disjFrom_mem_lb h3 d hd₂).1)
    · rcases List.mem_cons.mp hd with rfl | hd₂
      · exact Or.inr (Or.inl (disjFrom_mem_lb h3 c hc₂).1)
      · exact ih h3 hc₂ d hd₂

/-- When `t` does not lie strictly inside any cut, `realToPlayerEff` subtracts
exactly the total length of the cuts ending at or before `t`. -/
theorem realAux_outside {l : List Cut} {L t : ℚ} (h : DisjFrom L l)
    (ho : ∀ c ∈ l, ¬(c.s < t ∧ t < c.e)) (sh : ℚ) :
    realToPlayerEffAux l t sh = t - (sh + shiftBefore l t) := by
  induction l generalizing L sh with
  | nil => simp [realToPlayerEffAux, shiftBefore, totalCutLen_nil]
  | cons c rest ih =>
    rcases disjFrom_cons.mp h with ⟨h1, h2, h3⟩
    by_cases hce : c.e ≤ t
    · rw [show realToPlayerEffAux (c :: rest) t sh
            = realToPlayerEffAux rest t (sh + (c.e - c.s)) by
          simp [realToPlayerEffAux, hce]]
      rw [ih h3 (fun d hd => ho d (List.mem_cons_of_mem c hd)) (sh + (c.e - c.s))]
      rw [shiftBefore_cons, if_pos hce]
      ring
    · have hcs : ¬(c.s < t) := fun hst => ho c (List.mem_cons_self c rest) ⟨hst, lt_of_not_le hce⟩
      rw [show realToPlayerEffAux (c :: rest) t sh = t - sh by
          simp [realToPlayerEffAux, hce, hcs]]
      have hz : shiftBefore (c :: rest) t = 0 := by
        refine shiftBefore_eq_zero ?_
        intro d hd
        rcases List.mem_cons.mp hd with rfl | hd₂
        · exact lt_of_not_le hce
        · have := disjFrom_mem_lb h3 d hd₂
          have hts : t ≤ c.s := le_of_not_lt hcs
          linarith [this.1, this.2]
      rw [hz]; ring

/-- When `t` lies strictly inside cut `c`, `realToPlayerEff` pins the result
at `c.s` minus the accumulated shift. -/
theorem realAux_inside {l : List Cut} {L t : ℚ} (h : DisjFrom L l) {c : Cut}
    (hc : c ∈ l) (hs : c.s < t) (he : t < c.e) (sh : ℚ) :
    realToPlayerEffAux l t sh = c.s - (sh + shiftBefore l t) := by
  induction l generalizing L sh with
  | nil => cases hc
  | cons d rest ih =>
    rcases disjFrom_cons.mp h with ⟨h1, h2, h3⟩
    rcases List.mem_cons.mp hc with rfl | hc₂
    · have hce : ¬(c.e ≤ t) := not_le_of_lt he
      rw [show realToPlayerEffAux (c :: rest) t sh = c.s - sh by
          simp [realToPlayerEffAux, hce, hs]]
      have hz : shiftBefore (c :: rest) t = 0 := by
        refine shiftBefore_eq_zero ?_
        intro d hd
        rcases List.mem_cons.mp hd with rfl | hd₂
        · exact he
        · have := disjFrom_mem_lb h3 d hd₂
          linarith [this.1, this.2]
      rw [hz]; ring
    · have hde : d.e ≤ t := by
        have := (disjFrom_mem_lb h3 c hc₂).1
        linarith
      rw [show realToPlayerEffAux (d :: rest) t sh
            = realToPlayerEffAux rest t (sh + (d.e - d.s)) by
          simp [realToPlayerEffAux, hde]]
      rw [ih h3 hc₂ (sh + (d.e - d.s))]
      rw [shiftBefore_cons, if_pos hde]
      ring

/-- Lower bound on `realToPlayerEffAux`: the result never drops below the
chain's lower bound minus the incoming shift. -/
theorem realAux_lb {l : List Cut} {L t : ℚ} (h : DisjFrom L l) (ht : L ≤ t)
    (sh : ℚ) : L - sh ≤ realToPlayerEffAux l t sh := by
  induction l generalizing L sh with
  | nil =>
    show L - sh ≤ t - sh
    linarith
  | cons c rest ih =>
    rcases disjFrom_cons.mp h with ⟨h1, h2, h3⟩
    by_cases hce : c.e ≤ t
    · rw [show realToPlayerEffAux (c :: rest) t sh
            = realToPlayerEffAux rest t (sh + (c.e - c.s)) by
          simp [realToPlayerEffAux, hce]]
      have := ih h3 hce (sh + (c.e - c.s))
      linarith
    · by_cases hcs : c.s < t
      · rw [show realToPlayerEffAux (c :: rest) t sh = c.s - sh by
            simp [realToPlayerEffAux, hce, hcs]]
        linarith
      · rw [show realToPlayerEffAux (c :: rest) t sh = t - sh by
            simp [realToPlayerEffAux, hce, hcs]]
        linarith

/-- Round trip: mapping a real time strictly outside every cut to effective
time and back is the identity, for any incoming shift. -/
theorem roundTripAux {l : List Cut} {L t : ℚ} (h : DisjFrom L l)
    (ho : ∀ c ∈ l, t < c.s ∨ c.e < t) (sh : ℚ) :
    playerEffToRealAux l (realToPlayerEffAux l t sh) sh = t := by
  induction l generalizing L sh with
  | nil =>
    show (t - sh) + sh = t
    ring
  | cons c rest ih =>
    rcases disjFrom_cons.mp h with ⟨h1, h2, h3⟩
    rcases ho c (List.mem_cons_self c rest) with hlt | hgt
    · have hce : ¬(c.e ≤ t) := by linarith
      have hcs : ¬(c.s < t) := by linarith
      rw [show realToPlayerEffAux (c :: rest) t sh = t - sh by
          simp [realToPlayerEffAux, hce, hcs]]
      rw [show playerEffToRealAux (c :: rest) (t - sh) sh = (t - sh) + sh by
          simp [playerEffToRealAux, show ¬(c.s - sh ≤ t - sh) by linarith]]
      ring
    · have hce : c.e ≤ t := le_of_lt hgt
      rw [show realToPlayerEffAux (c :: rest) t sh
            = realToPlayerEffAux rest t (sh + (c.e - c.s)) by
          simp [realToPlayerEffAux, hce]]
      have hlb := realAux_lb h3 hce (sh + (c.e - c.s))
      rw [show playerEffToRealAux (c :: rest) (realToPlayerEffAux rest t (sh + (c.e - c.s))) sh
            = playerEffToRealAux rest (realToPlayerEffAux rest t (sh + (c.e - c.s)))
                (sh + (c.e - c.s)) by
          simp [playerEffToRealAux, show c.s - sh ≤ realToPlayerEffAux rest t (sh + (c.e - c.s)) by
            linarith]]
      exact ih h3 (fun d hd => ho d (List.mem_cons_of_mem c hd)) (sh + (c.e - c.s))

/-- The shift accumulated at a time strictly inside cut `c` equals the shift
accumulated at `c.s`: no cut ends in the half-open window `(c.s, t]`. -/
theorem shiftBefore_inside {cuts : List Cut} {c : Cut} {t : ℚ}
    (hn : Normalized cuts) (hc : c ∈ cuts) (hs : c.s < t) (he : t < c.e) :
    shiftBefore cuts t = shiftBefore cuts c.s := by
  have hfc : cuts.filter (fun d => decide (d.e ≤ t))
      = cuts.filter (fun d => decide (d.e ≤ c.s)) := by
    refine List.filter_congr ?_
    intro d hd
    have hmem := disjFrom_mem_lb hn d hd
    rcases disjFrom_trichotomy hn hc d hd with rfl | hde | hds
    · exact decide_eq_decide.mpr (iff_of_false (not_le_of_lt he) (not_le_of_lt hmem.2))
    · exact decide_eq_decide.mpr (iff_of_true (le_trans hde (le_of_lt hs)) hde)
    · have h1 : ¬(d.e ≤ t) := by
        have := disjFrom_mem_lb hn c hc
        linarith [hmem.2, this.2]
      have h2 : ¬(d.e ≤ c.s) := by
        have := disjFrom_mem_lb hn c hc
        linarith [hmem.2, this.2]
      exact decide_eq_decide.mpr (iff_of_false h1 h2)
  simp only [shiftBefore, hfc]

/-- A time strictly inside no cut of the chain, evaluated at a cut start. -/
theorem cutStart_not_inside {cuts : List Cut} {c : Cut} (hn : Normalized cuts)
    (hc : c ∈ cuts) : ∀ d ∈ cuts, ¬(d.s < c.s ∧ c.s < d.e) := by
  intro d hd
  have hmem := disjFrom_mem_lb hn d hd
  have hcm := disjFrom_mem_lb hn c hc
  rcases disjFrom_trichotomy hn hc d hd with rfl | hde | hds
  · rintro ⟨h1, _⟩; exact lt_irrefl _ h1
  · rintro ⟨_, h2⟩; linarith
  · rintro ⟨h1, _⟩; linarith [hcm.2]

/-- C1. For a normalized cut set (sorted, pairwise disjoint, `0 ≤ s < e`) and
any real time `t` strictly outside every cut interval,
`playerEffToReal (realToPlayerEff t) = t` — exactly, hence within the 1 ms
tolerance the specification allows; and for `t` strictly inside a cut, the
forward mapping collapses `t` to the cut's effective boundary, the image of
the cut's start. -/
theorem playerEff_roundTrip (cuts : List Cut) (t : ℚ) (hn : Normalized cuts) :
    ((∀ c ∈ cuts, t < c.s ∨ c.e < t) →
      playerEffToReal cuts (realToPlayerEff cuts t) = t)
    ∧ (∀ c ∈ cuts, c.s < t → t < c.e →
      realToPlayerEff cuts t = realToPlayerEff cuts c.s) := by
  constructor
  · intro ho
    exact roundTripAux hn ho 0
  · intro c hc hs he
    have hin := realAux_inside hn hc hs he 0
    have hout := realAux_outside hn (cutStart_not_inside hn hc) 0
    show realToPlayerEffAux cuts t 0 = realToPlayerEffAux cuts c.s 0
    rw [hin, hout, shiftBefore_inside hn hc hs he]

/-- Witness for C1 at the cut set `[{10,15}]` and `t = 20`. -/
theorem playerEff_roundTrip_witness :
    Normalized [Cut.mk 10 15]
      ∧ playerEffToReal [Cut.mk 10 15] (realToPlayerEff [Cut.mk 10 15] 20) = 20 :=
  ⟨by decide, (playerEff_roundTrip [Cut.mk 10 15] 20 (by decide)).1 (by decide)⟩

/-- C3. Over a normalized cut set, `realToPlayerEff` subtracts the total
length of the cuts ending at or before `t`; a `t` strictly inside a cut is
pinned at that cut's start minus the shift, any other `t` maps to `t` minus
the shift; concretely the single cut `{10,15}` maps real time 20 to
effective time 15. -/
theorem realToPlayerEff_walk (cuts : List Cut) (t : ℚ) (hn : Normalized cuts) :
    (∀ c ∈ cuts, c.s < t → t < c.e →
      realToPlayerEff cuts t = c.s - shiftBefore cuts t)
    ∧ ((∀ c ∈ cuts, ¬(c.s < t ∧ t < c.e)) →
      realToPlayerEff cuts t = t - shiftBefore cuts t)
    ∧ realToPlayerEff [Cut.mk 10 15] 20 = 15 := by
  refine ⟨?_, ?_, by norm_num [realToPlayerEff, realToPlayerEffAux]⟩
  · intro c hc hs he
    have := realAux_inside hn hc hs he 0
    simpa [realToPlayerEff] using this
  · intro ho
    have := realAux_outside hn ho 0
    simpa [realToPlayerEff] using this

/-- Witness for C3 at the cut set `[{10,15}]`, inside point 12 and outside
point 20. -/
theorem realToPlayerEff_walk_witness :
    realToPlayerEff [Cut.mk 10 15] 12 = 10 - shiftBefore [Cut.mk 10 15] 12
      ∧ realToPlayerEff [Cut.mk 10 15] 20 = 20 - shiftBefore [Cut.mk 10 15] 20 :=
  ⟨(realToPlayerEff_walk [Cut.mk 10 15] 12 (by decide)).1 (Cut.mk 10 15)
      (by decide) (by decide) (by decide),
    (realToPlayerEff_walk [Cut.mk 10 15] 20 (by decide)).2.1 (by decide)⟩

/-- The fattened span of a merged pair is the union of the two fattened
spans, provided they meet (`next.s - tol ≤ cur.e`) and are sorted. -/
theorem fat_merge {cur next : Cut} (hm : next.s - tol ≤ cur.e)
    (hs : cur.s ≤ next.s) (x : ℚ) :
    fat (Cut.mk cur.s (max cur.e next.e)) x ↔ fat cur x ∨ fat next x := by
  unfold fat
  simp only []
  constructor
  · rintro ⟨ha, hb⟩
    by_cases hc : x ≤ cur.e + tol
    · exact Or.inl ⟨ha, hc⟩
    · have hcx : cur.e + tol < x := lt_of_not_le hc
      rcases le_total cur.e next.e with hmx | hmx
      · rw [max_eq_right hmx] at hb
        exact Or.inr ⟨by linarith, hb⟩
      · rw [max_eq_left hmx] at hb
        exact absurd hb hc
  · rintro (⟨ha, hb⟩ | ⟨ha, hb⟩)
    · exact ⟨ha, le_trans hb (by have := le_max_left cur.e next.e; linarith)⟩
    · exact ⟨le_trans hs ha, le_trans hb (by have := le_max_right cur.e next.e; linarith)⟩

/-- Soundness of the merge pass: the output is separated (below any bound
under its first start) and its fattened cover is the union of the fattened
covers of the running interval and the remaining list. -/
theorem mergeWalk_spec (rest : List Cut) :
    ∀ cur : Cut, cur.s < cur.e →
    (∀ d ∈ rest, cur.s ≤ d.s) →
    List.Pairwise cutLE rest →
    (∀ d ∈ rest, d.s < d.e) →
    (∀ L, L < cur.s → SepFrom L (mergeWalk cur rest))
    ∧ (∀ x, fatCover (mergeWalk cur rest) x ↔ fat cur x ∨ fatCover rest x) := by
  induction rest with
  | nil =>
    intro cur h1 _ _ _
    constructor
    · intro L hL
      exact sepFrom_cons.mpr ⟨hL, h1, sepFrom_nil _⟩
    · intro x
      rw [show mergeWalk cur [] = [cur] from rfl, fatCover_cons]
  | cons next rest ih =>
    intro cur h1 h2 hpw h4
    rcases List.pairwise_cons.mp hpw with ⟨hhd, hpw₂⟩
    by_cases hm : next.s - tol ≤ cur.e
    · rw [show mergeWalk cur (next :: rest) = mergeWalk ⟨cur.s, max cur.e next.e⟩ rest from by
        rw [mergeWalk, if_pos hm]]
      have hns : cur.s ≤ next.s := h2 next (List.mem_cons_self next rest)
      obtain ⟨ihS, ihF⟩ := ih ⟨cur.s, max cur.e next.e⟩
        (lt_of_lt_of_le h1 (le_max_left _ _))
        (fun d hd => h2 d (List.mem_cons_of_mem next hd))
        hpw₂
        (fun d hd => h4 d (List.mem_cons_of_mem next hd))
      refine ⟨ihS, fun x => ?_⟩
      rw [ihF x, fat_merge hm hns x, fatCover_cons]
      tauto
    · rw [show mergeWalk cur (next :: rest) = cur :: mergeWalk next rest from by
        rw [mergeWalk, if_neg hm]]
      have hgap : cur.e + tol < next.s := by
        have := lt_of_not_le hm
        linarith
      obtain ⟨ihS, ihF⟩ := ih next
        (h4 next (List.mem_cons_self next rest))
        (fun d hd => hhd d hd)
        hpw₂
        (fun d hd => h4 d (List.mem_cons_of_mem next hd))
      constructor
      · intro L hL
        exact sepFrom_cons.mpr ⟨hL, h1, ihS (cur.e + tol) hgap⟩
      · intro x
        rw [fatCover_cons, ihF x, fatCover_cons]

/-- `normalizeCuts` produces a separated list with the same fattened cover
as its input. -/
theorem normalizeCuts_spec {l : List Cut} (h : ∀ c ∈ l, c.s < c.e) :
    SepLow (normalizeCuts l) ∧ ∀ x, fatCover (normalizeCuts l) x ↔ fatCover l x := by
  have hperm : (sortCuts l).Perm l := List.perm_insertionSort cutLE l
  have hsorted : List.Pairwise cutLE (sortCuts l) := List.sorted_insertionSort cutLE l
  have hmem : ∀ c ∈ sortCuts l, c.s < c.e := fun c hc => h c (hperm.mem_iff.mp hc)
  rcases hso : sortCuts l with _ | ⟨c, rest⟩
  · have : l = [] := (hso ▸ hperm).symm.eq_nil
    subst this
    constructor
    · exact trivial
    · intro x; rfl
  · rw [hso] at hperm hsorted hmem
    rcases List.pairwise_cons.mp hsorted with ⟨hhd, hpw₂⟩
    have hch : c.s < c.e := hmem c (List.mem_cons_self c rest)
    obtain ⟨hS, hF⟩ := mergeWalk_spec rest c hch
      (fun d hd => hhd d hd)
      hpw₂
      (fun d hd => hmem d (List.mem_cons_of_mem c hd))
    have hnc : normalizeCuts l = mergeWalk c rest := by
      rw [normalizeCuts, hso]
    constructor
    · rw [hnc]
      exact sepFrom_sepLow (hS (c.s - 1) (by linarith))
    · intro x
      rw [hnc, hF x, ← fatCover_cons]
      exact fatCover_perm hperm x

/-- All members of a separated list start at or after the head's start. -/
theorem sepLow_mem_start {c : Cut} {t : List Cut} (h : SepLow (c :: t)) :
    ∀ d ∈ c :: t, c.s ≤ d.s := by
  intro d hd
  rcases List.mem_cons.mp hd with rfl | hd₂
  · exact le_refl _
  · have := (sepFrom_mem_lb h.2 d hd₂).1
    have := tol_pos
    have := h.1
    linarith

/-- If every fattened point of one separated list is covered by a second and
the heads share a start, the first head ends no later than the second. -/
theorem sep_head_end_le {c₁ c₂ : Cut} {t₁ t₂ : List Cut}
    (h₁ : SepLow (c₁ :: t₁)) (h₂ : SepLow (c₂ :: t₂))
    (hsub : ∀ x, fatCover (c₁ :: t₁) x → fatCover (c₂ :: t₂) x)
    (hss : c₁.s = c₂.s) : c₁.e ≤ c₂.e := by
  by_contra hcon
  push_neg at hcon
  have hce₁ := h₁.1
  have hce₂ := h₂.1
  have htp := tol_pos
  cases t₂ with
  | nil =>
    have hx : fatCover [c₂] (c₁.e + tol) :=
      hsub (c₁.e + tol) (fatCover_cons.mpr (Or.inl ⟨by linarith, le_refl _⟩))
    rcases fatCover_cons.mp hx with hf | hf
    · linarith [hf.2]
    · exact fatCover_nil _ hf
  | cons d t₂x =>
    have hd : c₂.e + tol < d.s := (sepFrom_cons.mp h₂.2).1
    have hx1 : c₂.e + tol < min (c₁.e + tol) ((c₂.e + tol + d.s) / 2) :=
      lt_min (by linarith) (by linarith)
    have hx2 : min (c₁.e + tol) ((c₂.e + tol + d.s) / 2) < d.s :=
      lt_of_le_of_lt (min_le_right _ _) (by linarith)
    have hxc₁ : fat c₁ (min (c₁.e + tol) ((c₂.e + tol + d.s) / 2)) := by
      refine ⟨?_, min_le_left _ _⟩
      have : c₁.s < c₂.e := by rw [hss]; exact hce₂
      linarith
    have hx : fatCover (c₂ :: d :: t₂x) _ := hsub _ (fatCover_cons.mpr (Or.inl hxc₁))
    rcases fatCover_cons.mp hx with hf | hf
    · linarith [hf.2]
    · obtain ⟨m, hm, hfm⟩ := hf
      have hms : d.s ≤ m.s := sepLow_mem_start (sepFrom_sepLow h₂.2) m hm
      linarith [hfm.1]

/-- Two separated lists with the same fattened cover are equal: the fattened
cover determines a normalized cut set. -/
theorem sepLow_fat_unique : ∀ (l₁ l₂ : List Cut), SepLow l₁ → SepLow l₂ →
    (∀ x, fatCover l₁ x ↔ fatCover l₂ x) → l₁ = l₂ := by
  intro l₁
  induction l₁ with
  | nil =>
    intro l₂ _ h₂ hiff
    cases l₂ with
    | nil => rfl
    | cons c t =>
      exfalso
      have hself : fatCover (c :: t) c.s :=
        fatCover_cons.mpr (Or.inl ⟨le_refl _, by have := h₂.1; have := tol_pos; linarith⟩)
      exact fatCover_nil c.s ((hiff c.s).mpr hself)
  | cons c₁ t₁ ih =>
    intro l₂ h₁ h₂ hiff
    cases l₂ with
    | nil =>
      exfalso
      have hself : fatCover (c₁ :: t₁) c₁.s :=
        fatCover_cons.mpr (Or.inl ⟨le_refl _, by have := h₁.1; have := tol_pos; linarith⟩)
      exact fatCover_nil c₁.s ((hiff c₁.s).mp hself)
    | cons c₂ t₂ =>
      have hself₁ : fatCover (c₁ :: t₁) c₁.s :=
        fatCover_cons.mpr (Or.inl ⟨le_refl _, by have := h₁.1; have := tol_pos; linarith⟩)
      have hself₂ : fatCover (c₂ :: t₂) c₂.s :=
        fatCover_cons.mpr (Or.inl ⟨le_refl _, by have := h₂.1; have := tol_pos; linarith⟩)
      have hs12 : c₂.s ≤ c₁.s := by
        obtain ⟨m, hm, hfm⟩ := (hiff c₁.s).mp hself₁
        have := sepLow_mem_start h₂ m hm
        linarith [hfm.1]
      have hs21 : c₁.s ≤ c₂.s := by
        obtain ⟨m, hm, hfm⟩ := (hiff c₂.s).mpr hself₂
        have := sepLow_mem_start h₁ m hm
        linarith [hfm.1]
      have hss : c₁.s = c₂.s := le_antisymm hs21 hs12
      have hee : c₁.e = c₂.e :=
        le_antisymm (sep_head_end_le h₁ h₂ (fun x => (hiff x).mp) hss)
          (sep_head_end_le h₂ h₁ (fun x => (hiff x).mpr) hss.symm)
      have hc : c₁ = c₂ := by
        cases c₁; cases c₂
        cases hss; cases hee
        rfl
      subst hc
      have htiff : ∀ x, fatCover t₁ x ↔ fatCover t₂ x := by
        intro x
        constructor
        · intro hx
          obtain ⟨m, hm, hfm⟩ := hx
          have hms : c₁.e + tol < m.s := (sepFrom_mem_lb h₁.2 m hm).1
          have hx₂ : fatCover (c₁ :: t₂) x := (hiff x).mp (fatCover_cons.mpr (Or.inr ⟨m, hm, hfm⟩))
          rcases fatCover_cons.mp hx₂ with hf | hf
          · exfalso; linarith [hf.2, hfm.1]
          · exact hf
        · intro hx
          obtain ⟨m, hm, hfm⟩ := hx
          have hms : c₁.e + tol < m.s := (sepFrom_mem_lb h₂.2 m hm).1
          have hx₂ : fatCover (c₁ :: t₁) x := (hiff x).mpr (fatCover_cons.mpr (Or.inr ⟨m, hm, hfm⟩))
          rcases fatCover_cons.mp hx₂ with hf | hf
          · exfalso; linarith [hf.2, hfm.1]
          · exact hf
      exact congrArg (List.cons c₁)
        (ih t₂ (sepFrom_sepLow h₁.2) (sepFrom_sepLow h₂.2) htiff)

/-- `normalizeCuts` depends only on the fattened cover of its input. -/
theorem normalizeCuts_congr {l m : List Cut} (hl : ∀ c ∈ l, c.s < c.e)
    (hm : ∀ c ∈ m, c.s < c.e) (hfat : ∀ x, fatCover l x ↔ fatCover m x) :
    normalizeCuts l = normalizeCuts m := by
  obtain ⟨hS₁, hF₁⟩ := normalizeCuts_spec hl
  obtain ⟨hS₂, hF₂⟩ := normalizeCuts_spec hm
  exact sepLow_fat_unique _ _ hS₁ hS₂
    (fun x => (hF₁ x).trans ((hfat x).trans (hF₂ x).symm))

/-- `normalizeCuts` is the identity on already-separated lists. -/
theorem normalizeCuts_sepLow_id {l : List Cut} (h : SepLow l) :
    normalizeCuts l = l := by
  obtain ⟨hS, hF⟩ := normalizeCuts_spec (sepLow_mem h)
  exact sepLow_fat_unique _ _ hS h hF

/-- Inserting cuts one at a time through `addCut` computes the same set as a
single normalization of the whole collection. -/
theorem foldInsert_eq_normalize {l : List Cut} (h : ∀ c ∈ l, c.s < c.e) :
    foldInsert l = normalizeCuts l := by
  induction l using List.reverseRecOn with
  | nil => rfl
  | append_singleton l x ih =>
    have hl : ∀ c ∈ l, c.s < c.e := fun c hc => h c (List.mem_append_left _ hc)
    have hx : x.s < x.e := h x (List.mem_append_right _ (List.mem_singleton_self x))
    have h1 : foldInsert (l ++ [x]) = insertCut (foldInsert l) x := by
      rw [foldInsert, List.foldl_append]
      rfl
    rw [h1, ih hl, insertCut]
    apply normalizeCuts_congr
    · intro c hc
      rcases List.mem_append.mp hc with hc | hc
      · exact sepLow_mem (normalizeCuts_spec hl).1 c hc
      · rw [List.mem_singleton] at hc
        subst hc
        exact hx
    · exact h
    · intro y
      rw [fatCover_append, fatCover_append, (normalizeCuts_spec hl).2 y]

instance instSepLowDec : (l : List Cut) → Decidable (SepLow l)
  | [] => isTrue trivial
  | c :: rest => inferInstanceAs (Decidable (c.s < c.e ∧ SepFrom (c.e + tol) rest))

/-- C2. `addCut`-style insertion is deterministic and order-independent: for
any collection of non-degenerate intervals, inserting them one at a time in
any permutation order yields the same final set, namely the one-shot
normalization of the collection — the separated cover in which gaps of at
most 1 ms are coalesced (same fattened cover as the inputs); in particular
inserting `[2,4]`, `[6,8]`, `[3,7]` in any order yields `[[2,8]]`. -/
theorem normalizeCuts_order_independent (l l' : List Cut)
    (h : ∀ c ∈ l, c.s < c.e) (hp : l.Perm l') :
    foldInsert l' = foldInsert l
    ∧ SepLow (foldInsert l)
    ∧ (∀ x, fatCover (foldInsert l) x ↔ fatCover l x)
    ∧ (l = [Cut.mk 2 4, Cut.mk 6 8, Cut.mk 3 7] → foldInsert l = [Cut.mk 2 8]) := by
  have h₂ : ∀ c ∈ l', c.s < c.e := fun c hc => h c (hp.mem_iff.mpr hc)
  have e1 : foldInsert l' = normalizeCuts l' := foldInsert_eq_normalize h₂
  have e2 : foldInsert l = normalizeCuts l := foldInsert_eq_normalize h
  refine ⟨?_, ?_, ?_, ?_⟩
  · rw [e1, e2]
    exact normalizeCuts_congr h₂ h (fun x => (fatCover_perm hp x).symm)
  · rw [e2]
    exact (normalizeCuts_spec h).1
  · rw [e2]
    exact (normalizeCuts_spec h).2
  · intro hl
    subst hl
    rw [e2]
    norm_num [normalizeCuts, sortCuts, List.insertionSort, List.orderedInsert,
      mergeWalk, tol, cutLE, max_def]

/-- Witness for C2: the permutation `[3,7], [2,4], [6,8]` of the insertions
`[2,4], [6,8], [3,7]` produces the same set, the single interval `[2,8]`. -/
theorem normalizeCuts_order_independent_witness :
    foldInsert [Cut.mk 3 7, Cut.mk 2 4, Cut.mk 6 8]
        = foldInsert [Cut.mk 2 4, Cut.mk 6 8, Cut.mk 3 7]
      ∧ foldInsert [Cut.mk 2 4, Cut.mk 6 8, Cut.mk 3 7] = [Cut.mk 2 8] := by
  have h := normalizeCuts_order_independent [Cut.mk 2 4, Cut.mk 6 8, Cut.mk 3 7]
    [Cut.mk 3 7, Cut.mk 2 4, Cut.mk 6 8] (by decide) (by decide)
  exact ⟨h.1, h.2.2.2 rfl⟩

/-- C7. Insertion is idempotent: inserting an interval `X` already fully
contained in some interval of a normalized cut set (in particular, `X`
equal to an existing interval) leaves the set unchanged. -/
theorem insertCut_contained_id (cuts : List Cut) (X c : Cut) (hsep : SepLow cuts)
    (hc : c ∈ cuts) (h1 : c.s ≤ X.s) (h2 : X.e ≤ c.e) (hX : X.s < X.e) :
    insertCut cuts X = cuts := by
  have hmem := sepLow_mem hsep
  have hmm : ∀ d ∈ cuts ++ [X], d.s < d.e := by
    intro d hd
    rcases List.mem_append.mp hd with hd | hd
    · exact hmem d hd
    · rw [List.mem_singleton] at hd
      subst hd
      exact hX
  have hfat : ∀ x, fatCover (cuts ++ [X]) x ↔ fatCover cuts x := by
    intro x
    rw [fatCover_append]
    constructor
    · rintro (hx | hx)
      · exact hx
      · obtain ⟨m, hm, hfm⟩ := hx
        rw [List.mem_singleton] at hm
        subst hm
        exact ⟨c, hc, le_trans h1 hfm.1, by linarith [hfm.2]⟩
    · intro hx
      exact Or.inl hx
  rw [insertCut, normalizeCuts_congr hmm hmem hfat, normalizeCuts_sepLow_id hsep]

/-- Witness for C7: re-inserting the existing interval `[10,15]` changes
nothing. -/
theorem insertCut_contained_id_witness :
    insertCut [Cut.mk 10 15] (Cut.mk 10 15) = [Cut.mk 10 15] :=
  insertCut_contained_id [Cut.mk 10 15] (Cut.mk 10 15) (Cut.mk 10 15)
    ⟨by norm_num, sepFrom_nil _⟩ (by decide) (by decide) (by decide) (by decide)

theorem disjFrom_append_left {a b : List Cut} {L : ℚ} (h : DisjFrom L (a ++ b)) :
    DisjFrom L a := by
  induction a generalizing L with
  | nil => exact disjFrom_nil L
  | cons c t ih =>
    rcases disjFrom_cons.mp h with ⟨h1, h2, h3⟩
    exact disjFrom_cons.mpr ⟨h1, h2, ih h3⟩

theorem disjFrom_append_right {a b : List Cut} {L : ℚ} (h : DisjFrom L (a ++ b)) :
    ∃ M, L ≤ M ∧ DisjFrom M b := by
  induction a generalizing L with
  | nil => exact ⟨L, le_refl L, h⟩
  | cons c t ih =>
    rcases disjFrom_cons.mp h with ⟨h1, h2, h3⟩
    obtain ⟨M, hM, hd⟩ := ih h3
    exact ⟨M, by linarith, hd⟩

theorem disjFrom_raise {l : List Cut} {L M : ℚ} (h : DisjFrom L l)
    (hm : ∀ c ∈ l, M ≤ c.s) : DisjFrom M l := by
  cases l with
  | nil => exact disjFrom_nil M
  | cons c t =>
    rcases disjFrom_cons.mp h with ⟨_, h2, h3⟩
    exact disjFrom_cons.mpr ⟨hm c (List.mem_cons_self c t), h2, h3⟩

/-- Total length of a sorted disjoint chain confined to `[L, E]`. -/
theorem disjFrom_sum_le {l : List Cut} {L E : ℚ} (h : DisjFrom L l)
    (hend : ∀ c ∈ l, c.e ≤ E) (hLE : L ≤ E) : totalCutLen l ≤ E - L := by
  induction l generalizing L with
  | nil =>
    rw [totalCutLen_nil]
    linarith
  | cons c t ih =>
    rcases disjFrom_cons.mp h with ⟨h1, h2, h3⟩
    have hce : c.e ≤ E := hend c (List.mem_cons_self c t)
    have := ih h3 (fun d hd => hend d (List.mem_cons_of_mem c hd)) hce
    rw [totalCutLen_cons]
    linarith

theorem dropWhile_mem_lb : ∀ (n : List Cut) (L B : ℚ), DisjFrom L n →
    ∀ m ∈ n.dropWhile (fun c => decide (c.s ≤ B)), B < m.s := by
  intro n
  induction n with
  | nil =>
    intro L B _ m hm
    simp [List.dropWhile] at hm
  | cons c t ih =>
    intro L B h m hm
    rcases disjFrom_cons.mp h with ⟨h1, h2, h3⟩
    by_cases hc : c.s ≤ B
    · rw [show (c :: t).dropWhile (fun c => decide (c.s ≤ B))
            = t.dropWhile (fun c => decide (c.s ≤ B)) by
          simp [List.dropWhile, hc]] at hm
      exact ih c.e B h3 m hm
    · rw [show (c :: t).dropWhile (fun c => decide (c.s ≤ B)) = c :: t by
          simp [List.dropWhile, hc]] at hm
      rcases List.mem_cons.mp hm with rfl | hm₂
      · exact lt_of_not_le hc
      · have := (disjFrom_mem_lb h3 m hm₂).1
        have := lt_of_not_le hc
        linarith

/-- An interval whose fattened span is covered by `fat C ∪ fatCover N'`,
starting at or before `C.e + tol`, is contained in `C`. -/
theorem cover_contained {C : Cut} {N' : List Cut}
    (hsep : SepFrom (C.e + tol) N') {m : Cut} (hm : m.s < m.e)
    (hms : m.s ≤ C.e + tol)
    (hcov : ∀ x, fat m x → fat C x ∨ fatCover N' x) :
    C.s ≤ m.s ∧ m.e ≤ C.e := by
  have htp := tol_pos
  constructor
  · rcases hcov m.s ⟨le_refl _, by linarith⟩ with hf | hf
    · exact hf.1
    · exfalso
      obtain ⟨D, hD, hfD⟩ := hf
      have := (sepFrom_mem_lb hsep D hD).1
      linarith [hfD.1]
  · by_contra hcon
    push_neg at hcon
    cases N' with
    | nil =>
      rcases hcov (m.e + tol) ⟨by linarith, le_refl _⟩ with hf | hf
      · linarith [hf.2]
      · exact fatCover_nil _ hf
    | cons D t =>
      have hD : C.e + tol < D.s := (sepFrom_cons.mp hsep).1
      have h1 : C.e + tol < min (m.e + tol) ((C.e + tol + D.s) / 2) :=
        lt_min (by linarith) (by linarith)
      have h2 : min (m.e + tol) ((C.e + tol + D.s) / 2) < D.s :=
        lt_of_le_of_lt (min_le_right _ _) (by linarith)
      have hfm : fat m (min (m.e + tol) ((C.e + tol + D.s) / 2)) :=
        ⟨by linarith, min_le_left _ _⟩
      rcases hcov _ hfm with hf | hf
      · linarith [hf.2]
      · obtain ⟨m₂, hm₂, hfm₂⟩ := hf
        have : D.s ≤ m₂.s := sepLow_mem_start (sepFrom_sepLow hsep) m₂ hm₂
        linarith [hfm₂.1]

/-- Monotonicity of total cut length under cover containment: a sorted
disjoint chain whose fattened cover is inside the fattened cover of a
separated list has no greater total length. -/
theorem totalCutLen_cover_le : ∀ (N : List Cut), SepLow N →
    ∀ (n : List Cut) (L : ℚ), DisjFrom L n →
    (∀ x, fatCover n x → fatCover N x) → totalCutLen n ≤ totalCutLen N := by
  intro N
  induction N with
  | nil =>
    intro _ n L hn hcov
    cases n with
    | nil => rw [totalCutLen_nil]
    | cons c t =>
      exfalso
      have hce := (disjFrom_mem_lb hn c (List.mem_cons_self c t)).2
      have htp := tol_pos
      exact fatCover_nil c.s
        (hcov c.s (fatCover_cons.mpr (Or.inl ⟨le_refl _, by linarith⟩)))
  | cons C N' ih =>
    intro hN n L hn hcov
    obtain ⟨hC, hsep⟩ := hN
    have htp := tol_pos
    have hsplit : n.takeWhile (fun c => decide (c.s ≤ C.e + tol))
        ++ n.dropWhile (fun c => decide (c.s ≤ C.e + tol)) = n :=
      List.takeWhile_append_dropWhile _ n
    have htwmem : ∀ m ∈ n.takeWhile (fun c => decide (c.s ≤ C.e + tol)),
        C.s ≤ m.s ∧ m.e ≤ C.e := by
      intro m hm
      have hmn : m ∈ n := by
        rw [← hsplit]
        exact List.mem_append_left _ hm
      have hms : m.s ≤ C.e + tol := by
        have hptrue := List.mem_takeWhile_imp hm
        simpa only [decide_eq_true_eq] using hptrue
      have hmse : m.s < m.e := (disjFrom_mem_lb hn m hmn).2
      refine cover_contained hsep hmse hms ?_
      intro x hx
      exact fatCover_cons.mp (hcov x ⟨m, hmn, hx⟩)
    have htwsum : totalCutLen (n.takeWhile (fun c => decide (c.s ≤ C.e + tol)))
        ≤ C.e - C.s := by
      have hdtw : DisjFrom L (n.takeWhile (fun c => decide (c.s ≤ C.e + tol))) := by
        apply disjFrom_append_left (b := n.dropWhile (fun c => decide (c.s ≤ C.e + tol)))
        rw [hsplit]
        exact hn
      have hdtw₂ : DisjFrom C.s (n.takeWhile (fun c => decide (c.s ≤ C.e + tol))) :=
        disjFrom_raise hdtw (fun m hm => (htwmem m hm).1)
      exact disjFrom_sum_le hdtw₂ (fun m hm => (htwmem m hm).2) (le_of_lt hC)
    have hdw_cov : ∀ x,
        fatCover (n.dropWhile (fun c => decide (c.s ≤ C.e + tol))) x → fatCover N' x := by
      rintro x ⟨m, hm, hfm⟩
      have hmn : m ∈ n := by
        rw [← hsplit]
        exact List.mem_append_right _ hm
      have hlb : C.e + tol < m.s := dropWhile_mem_lb n L (C.e + tol) hn m hm
      rcases fatCover_cons.mp (hcov x ⟨m, hmn, hfm⟩) with hf | hf
      · exfalso
        linarith [hf.2, hfm.1]
      · exact hf
    have hdw_sum : totalCutLen (n.dropWhile (fun c => decide (c.s ≤ C.e + tol)))
        ≤ totalCutLen N' := by
      obtain ⟨M, _, hdj⟩ := disjFrom_append_right
        (show DisjFrom L (n.takeWhile (fun c => decide (c.s ≤ C.e + tol))
          ++ n.dropWhile (fun c => decide (c.s ≤ C.e + tol))) by rw [hsplit]; exact hn)
      exact ih (sepFrom_sepLow hsep) _ M hdj hdw_cov
    calc totalCutLen n
        = totalCutLen (n.takeWhile (fun c => decide (c.s ≤ C.e + tol)))
          + totalCutLen (n.dropWhile (fun c => decide (c.s ≤ C.e + tol))) := by
          rw [← totalCutLen_append, hsplit]
      _ ≤ (C.e - C.s) + totalCutLen N' := add_le_add htwsum hdw_sum
      _ = totalCutLen (C :: N') := (totalCutLen_cons C N').symm

theorem sepFrom_eraseIdx {l : List Cut} {L : ℚ} (h : SepFrom L l) (i : ℕ) :
    SepFrom L (l.eraseIdx i) := by
  induction l generalizing L i with
  | nil => exact sepFrom_nil L
  | cons c t ih =>
    rcases sepFrom_cons.mp h with ⟨h1, h2, h3⟩
    cases i with
    | zero =>
      rw [List.eraseIdx_cons_zero]
      refine sepFrom_weaken ?_ h3
      have := tol_pos
      linarith
    | succ i =>
      rw [List.eraseIdx_cons_succ]
      exact sepFrom_cons.mpr ⟨h1, h2, ih h3 i⟩

theorem sepLow_eraseIdx {l : List Cut} (h : SepLow l) (i : ℕ) :
    SepLow (l.eraseIdx i) := by
  cases l with
  | nil => exact trivial
  | cons c t =>
    cases i with
    | zero =>
      rw [List.eraseIdx_cons_zero]
      exact sepFrom_sepLow h.2
    | succ i =>
      rw [List.eraseIdx_cons_succ]
      exact ⟨h.1, sepFrom_eraseIdx h.2 i⟩

theorem totalCutLen_eraseIdx_le {l : List Cut} (h : ∀ c ∈ l, c.s < c.e) (i : ℕ) :
    totalCutLen (l.eraseIdx i) ≤ totalCutLen l := by
  induction l generalizing i with
  | nil => exact le_refl _
  | cons c t ih =>
    have hc := h c (List.mem_cons_self c t)
    have ht : ∀ d ∈ t, d.s < d.e := fun d hd => h d (List.mem_cons_of_mem c hd)
    cases i with
    | zero =>
      rw [List.eraseIdx_cons_zero, totalCutLen_cons]
      have := totalCutLen_nonneg ht
      linarith
    | succ i =>
      rw [List.eraseIdx_cons_succ, totalCutLen_cons, totalCutLen_cons]
      have := ih ht i
      linarith

/-- C4. With the stored cut set in its normalized shape and confined to
`[0, duration]`, the player's effective duration equals
`duration - totalCutLen`, is never negative, does not increase when a cut is
inserted through `addCut` (the normalized total cut length never decreases
under insertion), and does not decrease when a cut is removed by index. -/
theorem effDuration_shrink (d : ℚ) (cuts : List Cut) (x : Cut) (i : ℕ)
    (hsep : SepLow cuts) (hbnd : ∀ c ∈ cuts, 0 ≤ c.s ∧ c.e ≤ d)
    (hd : 0 ≤ d) (hx : x.s < x.e) :
    effDurationAfterCuts d cuts = d - totalCutLen cuts
    ∧ 0 ≤ effDurationAfterCuts d cuts
    ∧ effDurationAfterCuts d (insertCut cuts x) ≤ effDurationAfterCuts d cuts
    ∧ effDurationAfterCuts d cuts
        ≤ effDurationAfterCuts d (normalizeCuts (cuts.eraseIdx i)) := by
  have hmem := sepLow_mem hsep
  have hdz : DisjFrom 0 cuts := sepLow_disjFrom hsep (fun c hc => (hbnd c hc).1)
  have htot : totalCutLen cuts ≤ d := by
    have := disjFrom_sum_le hdz (fun c hc => (hbnd c hc).2) hd
    linarith
  refine ⟨?_, le_max_left 0 _, ?_, ?_⟩
  · exact max_eq_right (by linarith)
  · have hmm : ∀ c ∈ cuts ++ [x], c.s < c.e := by
      intro c hc
      rcases List.mem_append.mp hc with hc | hc
      · exact hmem c hc
      · rw [List.mem_singleton] at hc
        subst hc
        exact hx
    have hins := normalizeCuts_spec hmm
    have hle : totalCutLen cuts ≤ totalCutLen (insertCut cuts x) := by
      refine totalCutLen_cover_le (insertCut cuts x) hins.1 cuts 0 hdz ?_
      intro y hy
      exact (hins.2 y).mpr (fatCover_append.mpr (Or.inl hy))
    exact max_le_max (le_refl 0) (by linarith)
  · have hse : SepLow (cuts.eraseIdx i) := sepLow_eraseIdx hsep i
    rw [normalizeCuts_sepLow_id hse]
    have := totalCutLen_eraseIdx_le hmem i
    exact max_le_max (le_refl 0) (by linarith)

/-- Witness for C4: duration 60, cut set `[{10,15}]`, inserting `{20,25}`,
removing index 0. -/
theorem effDuration_shrink_witness :
    effDurationAfterCuts 60 [Cut.mk 10 15] = 60 - totalCutLen [Cut.mk 10 15]
    ∧ effDurationAfterCuts 60 (insertCut [Cut.mk 10 15] (Cut.mk 20 25))
        ≤ effDurationAfterCuts 60 [Cut.mk 10 15] := by
  have h := effDuration_shrink 60 [Cut.mk 10 15] (Cut.mk 20 25) 0
    ⟨by norm_num, sepFrom_nil _⟩ (by decide) (by decide) (by decide)
  exact ⟨h.1, h.2.2.1⟩

/-- One media buffer handle: real-time playback cursor, paused flag, volume. -/
structure PBuf where
  time : ℚ
  paused : Bool
  volume : ℚ
deriving DecidableEq, Repr

/-- The playback pair: buffers A and B plus which of them carries the
`video-visible` class, i.e. the active role. -/
structure PState where
  a : PBuf
  b : PBuf
  aActive : Bool
deriving DecidableEq, Repr

/-- The buffer returned by `active()` in `VideoEditor.tsx`. -/
def activeBuf (st : PState) : PBuf := if st.aActive then st.a else st.b

/-- The buffer returned by `standby()` in `VideoEditor.tsx`. -/
def standbyBuf (st : PState) : PBuf := if st.aActive then st.b else st.a

/-- Assignment `standby().currentTime = x`, with the seek succeeding. -/
def setStandbyTime (st : PState) (x : ℚ) : PState :=
  if st.aActive then { st with b := { st.b with time := x } }
  else { st with a := { st.a with time := x } }

/-- Effect of `standby().play()`: the standby buffer is no longer paused. -/
def setStandbyPlaying (st : PState) : PState :=
  if st.aActive then { st with b := { st.b with paused := false } }
  else { st with a := { st.a with paused := false } }

/-- Instantaneous part of `crossToStandby`: `show(to)`/`hide(from)` swap the
visible (active) role and `to.play()` starts the incoming buffer; the 150 ms
volume ramp that follows is modelled by `fadeStep`. -/
def crossToStandby (st : PState) : PState :=
  { setStandbyPlaying st with aActive := !st.aActive }

/-- `tickSkip` from `VideoEditor.tsx`, with the media seeks modelled as
succeeding: read the active cursor `t`; query `nextCutAfter`; within the
400 ms pre-roll margin pre-seek the standby to `max(cut.e, t + len)`; once
`cut.s ≤ t < cut.e`, force the standby cursor up to at least `cut.e`, start
the standby playing if the active buffer is playing, and perform the
crossfade swap in the same tick. -/
def tickSkip (cuts : List Cut) (st : PState) : PState :=
  match nextCutAfter cuts (activeBuf st).time with
  | none => st
  | some cut =>
    let t := (activeBuf st).time
    let len := cut.e - cut.s
    let st₁ := if cut.s - 2/5 ≤ t then setStandbyTime st (max cut.e (t + len)) else st
    if cut.s ≤ t ∧ t < cut.e then
      let st₂ := setStandbyTime st₁ (max (standbyBuf st₁).time cut.e)
      let st₃ := if (activeBuf st₂).paused then st₂ else setStandbyPlaying st₂
      crossToStandby st₃
    else st₁

theorem aActive_setStandbyTime (st : PState) (x : ℚ) :
    (setStandbyTime st x).aActive = st.aActive := by
  by_cases h : st.aActive <;> simp [setStandbyTime, h]

theorem aActive_setStandbyPlaying (st : PState) :
    (setStandbyPlaying st).aActive = st.aActive := by
  by_cases h : st.aActive <;> simp [setStandbyPlaying, h]

theorem aActive_crossToStandby (st : PState) :
    (crossToStandby st).aActive = !st.aActive := by
  by_cases h : st.aActive <;> simp [crossToStandby, setStandbyPlaying, h]

theorem standbyTime_setStandbyTime (st : PState) (x : ℚ) :
    (standbyBuf (setStandbyTime st x)).time = x := by
  by_cases h : st.aActive <;> simp [setStandbyTime, standbyBuf, h]

theorem standbyTime_setStandbyPlaying (st : PState) :
    (standbyBuf (setStandbyPlaying st)).time = (standbyBuf st).time := by
  by_cases h : st.aActive <;> simp [setStandbyPlaying, standbyBuf, h]

theorem activeBuf_setStandbyTime (st : PState) (x : ℚ) :
    activeBuf (setStandbyTime st x) = activeBuf st := by
  by_cases h : st.aActive <;> simp [setStandbyTime, activeBuf, h]

theorem activeTime_crossToStandby (st : PState) :
    (activeBuf (crossToStandby st)).time = (standbyBuf st).time := by
  by_cases h : st.aActive <;> simp [crossToStandby, setStandbyPlaying, activeBuf, standbyBuf, h]

/-- C5 (amended). When the active buffer's cursor enters a cut
(`cut.s ≤ t < cut.e`), `tickSkip` performs the crossfade swap in that same
tick — there is no deferral — but only after forcing the standby cursor to
`max(standby, cut.e)`, so (with seeks modelled as succeeding) the buffer that
becomes active is positioned at or after `cut.e` at the moment of the swap. -/
theorem tickSkip_swap (cuts : List Cut) (st : PState) (cut : Cut)
    (hc : nextCutAfter cuts (activeBuf st).time = some cut)
    (h1 : cut.s ≤ (activeBuf st).time) (h2 : (activeBuf st).time < cut.e) :
    (tickSkip cuts st).aActive = !st.aActive
    ∧ cut.e ≤ (activeBuf (tickSkip cuts st)).time := by
  have hcond : cut.s ≤ (activeBuf st).time ∧ (activeBuf st).time < cut.e := ⟨h1, h2⟩
  suffices h : ∀ s₁ : PState, s₁.aActive = st.aActive →
      (crossToStandby (if (activeBuf (setStandbyTime s₁ (max (standbyBuf s₁).time cut.e))).paused
          then setStandbyTime s₁ (max (standbyBuf s₁).time cut.e)
          else setStandbyPlaying (setStandbyTime s₁ (max (standbyBuf s₁).time cut.e)))).aActive
        = !st.aActive
      ∧ cut.e ≤ (activeBuf (crossToStandby
          (if (activeBuf (setStandbyTime s₁ (max (standbyBuf s₁).time cut.e))).paused
            then setStandbyTime s₁ (max (standbyBuf s₁).time cut.e)
            else setStandbyPlaying (setStandbyTime s₁ (max (standbyBuf s₁).time cut.e))))).time by
    simp only [tickSkip, hc, if_pos hcond]
    exact h _ (by by_cases hpre : cut.s - 2/5 ≤ (activeBuf st).time <;>
      simp [hpre, aActive_setStandbyTime])
  intro s₁ hA
  by_cases hp : (activeBuf (setStandbyTime s₁ (max (standbyBuf s₁).time cut.e))).paused
  · rw [if_pos hp]
    constructor
    · rw [aActive_crossToStandby, aActive_setStandbyTime, hA]
    · rw [activeTime_crossToStandby, standbyTime_setStandbyTime]
      exact le_max_right _ _
  · rw [if_neg hp]
    constructor
    · rw [aActive_crossToStandby, aActive_setStandbyPlaying, aActive_setStandbyTime, hA]
    · rw [activeTime_crossToStandby, standbyTime_setStandbyPlaying,
        standbyTime_setStandbyTime]
      exact le_max_right _ _

/-- Witness for C5 (amended) at cut `{10,15}`, active cursor 12, standby
at 0. -/
theorem tickSkip_swap_witness :
    (tickSkip [Cut.mk 10 15] (PState.mk (PBuf.mk 12 false 1) (PBuf.mk 0 true 0) true)).aActive
        = !(PState.mk (PBuf.mk 12 false 1) (PBuf.mk 0 true 0) true).aActive
      ∧ (15 : ℚ) ≤ (activeBuf (tickSkip [Cut.mk 10 15]
          (PState.mk (PBuf.mk 12 false 1) (PBuf.mk 0 true 0) true))).time :=
  tickSkip_swap [Cut.mk 10 15] (PState.mk (PBuf.mk 12 false 1) (PBuf.mk 0 true 0) true)
    (Cut.mk 10 15) (by norm_num [nextCutAfter, activeBuf]) (by norm_num [activeBuf])
    (by norm_num [activeBuf])

/-- C5 counterexample to the deferral clause: with cut `{10,15}`, active
cursor at 12 and the standby buffer still at 0 (not yet positioned at or
after the cut end), `tickSkip` nevertheless performs the crossfade swap in
the same duty-cycle tick — the swap is not deferred by one tick. -/
theorem tickSkip_no_deferral_cex :
    (standbyBuf (PState.mk (PBuf.mk 12 false 1) (PBuf.mk 0 true 0) true)).time < (15 : ℚ)
    ∧ nextCutAfter [Cut.mk 10 15]
        (activeBuf (PState.mk (PBuf.mk 12 false 1) (PBuf.mk 0 true 0) true)).time
        = some (Cut.mk 10 15)
    ∧ (tickSkip [Cut.mk 10 15]
        (PState.mk (PBuf.mk 12 false 1) (PBuf.mk 0 true 0) true)).aActive = false := by
  refine ⟨by norm_num [standbyBuf], by norm_num [nextCutAfter, activeBuf], ?_⟩
  norm_num [tickSkip, nextCutAfter, activeBuf, standbyBuf, setStandbyTime,
    setStandbyPlaying, crossToStandby, max_def]

/-- Crossfade ramp state: the two volumes written on an animation frame and
whether the outgoing buffer has been paused. -/
structure FadeState where
  fromVol : ℚ
  toVol : ℚ
  fromPaused : Bool
deriving DecidableEq, Repr

/-- `FADE_MS = 150` from `VideoEditor.tsx`. -/
def fadeMs : ℚ := 150

/-- `k = Math.min(1, (ts - t0) / FADE_MS)` from the ramp `step`. -/
def fadeK (t0 ts : ℚ) : ℚ := min 1 ((ts - t0) / fadeMs)

/-- One animation-frame `step` of the ramp in `crossToStandby`: both volume
writes are clamped into `[0,1]`; once `k` reaches 1 the outgoing buffer is
paused. -/
def fadeStep (fromStart toStart k : ℚ) (st : FadeState) : FadeState :=
  { fromVol := max 0 (min 1 (fromStart * (1 - k))),
    toVol := max 0 (min 1 (toStart + (1 - toStart) * k)),
    fromPaused := if k < 1 then st.fromPaused else true }

/-- C10. Throughout the crossfade ramp both volume writes lie in `[0,1]`
for every frame time and any starting volumes, and when the ramp completes
(`ts - t0 ≥ FADE_MS`) the incoming volume is exactly 1, the outgoing volume
is exactly 0, and the outgoing buffer is paused. -/
theorem crossfade_volumes (fromStart toStart t0 ts : ℚ) (st : FadeState) :
    (0 ≤ (fadeStep fromStart toStart (fadeK t0 ts) st).fromVol
      ∧ (fadeStep fromStart toStart (fadeK t0 ts) st).fromVol ≤ 1
      ∧ 0 ≤ (fadeStep fromStart toStart (fadeK t0 ts) st).toVol
      ∧ (fadeStep fromStart toStart (fadeK t0 ts) st).toVol ≤ 1)
    ∧ (fadeMs ≤ ts - t0 →
      fadeStep fromStart toStart (fadeK t0 ts) st = FadeState.mk 0 1 true) := by
  constructor
  · refine ⟨le_max_left 0 _, max_le (by norm_num) (min_le_left 1 _),
      le_max_left 0 _, max_le (by norm_num) (min_le_left 1 _)⟩
  · intro hdone
    have hk : fadeK t0 ts = 1 := by
      rw [fadeK, min_eq_left]
      rw [le_div_iff₀ (by norm_num [fadeMs])]
      linarith [hdone]
    rw [hk, fadeStep]
    simp only [FadeState.mk.injEq]
    norm_num

/-- Witness for C10: starting volumes 1 and 0, frame 300 ms after start. -/
theorem crossfade_volumes_witness :
    0 ≤ (fadeStep 1 0 (fadeK 0 300) (FadeState.mk 1 0 false)).fromVol
    ∧ fadeStep 1 0 (fadeK 0 300) (FadeState.mk 1 0 false) = FadeState.mk 0 1 true :=
  ⟨(crossfade_volumes 1 0 0 300 (FadeState.mk 1 0 false)).1.1,
    (crossfade_volumes 1 0 0 300 (FadeState.mk 1 0 false)).2 (by norm_num [fadeMs])⟩

/-- `clamp` from `VideoEditor.tsx`: `Math.max(a, Math.min(b, v))`. -/
def clamp (v a b : ℚ) : ℚ := max a (min b v)

/-- The editor state fields the cut-set claims depend on. -/
structure EditorState where
  duration : ℚ
  cuts : List Cut
  viewStart : ℚ
  viewEnd : ℚ
  selStart : ℚ
  selEnd : ℚ
deriving DecidableEq, Repr

/-- `onMeta` from `VideoEditor.tsx`: adopt the new media duration, reset the
viewport to `[0, dur]` and re-fit the selection; the stored cuts are not
touched. -/
def onMeta (dur : ℚ) (st : EditorState) : EditorState :=
  { st with
    duration := dur
    viewStart := 0
    viewEnd := dur
    selStart := clamp 0 0 (dur - min 5 (max 1 (dur * (1 / 10))))
    selEnd := clamp 0 0 (dur - min 5 (max 1 (dur * (1 / 10))))
      + min 5 (max 1 (dur * (1 / 10))) }

/-- Effect of `addCut` on the stored cut set: reject selections under 50 ms,
reject near-duplicates (both endpoints within 0.1 s of an existing cut),
otherwise append the selection (identity `effToReal`) and normalize. -/
def addCut (st : EditorState) : List Cut :=
  if st.selEnd - st.selStart < 1 / 20 then st.cuts
  else if st.cuts.any (fun c =>
      decide (|c.s - st.selStart| < 1 / 10 ∧ |c.e - st.selEnd| < 1 / 10)) then st.cuts
  else normalizeCuts (st.cuts ++ [Cut.mk st.selStart st.selEnd])

/-- Effect of `removeCut` on the stored cut set: drop the indexed interval
and re-normalize. -/
def removeCut (st : EditorState) (i : ℕ) : List Cut :=
  normalizeCuts (st.cuts.eraseIdx i)

/-- Effect of loading new media (`handleVideoSelect` / `handleClearVideo`):
the cut set is discarded, not clipped. -/
def loadNewMedia (st : EditorState) : EditorState := { st with cuts := [] }

/-- `mergeWalk` keeps every output interval inside any band containing the
running interval and the remaining inputs. -/
theorem mergeWalk_bounds : ∀ (rest : List Cut) (cur : Cut) (lo hi : ℚ),
    lo ≤ cur.s → cur.e ≤ hi → (∀ c ∈ rest, lo ≤ c.s ∧ c.e ≤ hi) →
    ∀ c ∈ mergeWalk cur rest, lo ≤ c.s ∧ c.e ≤ hi := by
  intro rest
  induction rest with
  | nil =>
    intro cur lo hi h1 h2 _ c hc
    rw [show mergeWalk cur [] = [cur] from rfl, List.mem_singleton] at hc
    subst hc
    exact ⟨h1, h2⟩
  | cons next rest ih =>
    intro cur lo hi h1 h2 h3 c hc
    by_cases hm : next.s - tol ≤ cur.e
    · rw [show mergeWalk cur (next :: rest) = mergeWalk ⟨cur.s, max cur.e next.e⟩ rest from by
        rw [mergeWalk, if_pos hm]] at hc
      exact ih ⟨cur.s, max cur.e next.e⟩ lo hi h1
        (max_le h2 (h3 next (List.mem_cons_self next rest)).2)
        (fun d hd => h3 d (List.mem_cons_of_mem next hd)) c hc
    · rw [show mergeWalk cur (next :: rest) = cur :: mergeWalk next rest from by
        rw [mergeWalk, if_neg hm]] at hc
      rcases List.mem_cons.mp hc with rfl | hc₂
      · exact ⟨h1, h2⟩
      · exact ih next lo hi (h3 next (List.mem_cons_self next rest)).1
          (h3 next (List.mem_cons_self next rest)).2
          (fun d hd => h3 d (List.mem_cons_of_mem next hd)) c hc₂

/-- `normalizeCuts` keeps every interval inside any band containing its
inputs. -/
theorem normalizeCuts_bounds {l : List Cut} {lo hi : ℚ}
    (h : ∀ c ∈ l, lo ≤ c.s ∧ c.e ≤ hi) :
    ∀ c ∈ normalizeCuts l, lo ≤ c.s ∧ c.e ≤ hi := by
  have hperm : (sortCuts l).Perm l := List.perm_insertionSort cutLE l
  have hmem : ∀ c ∈ sortCuts l, lo ≤ c.s ∧ c.e ≤ hi :=
    fun c hc => h c (hperm.mem_iff.mp hc)
  rcases hso : sortCuts l with _ | ⟨c, rest⟩
  · intro c hc
    rw [show normalizeCuts l = [] from by rw [normalizeCuts, hso]] at hc
    cases hc
  · rw [hso] at hmem
    intro d hd
    rw [show normalizeCuts l = mergeWalk c rest from by rw [normalizeCuts, hso]] at hd
    exact mergeWalk_bounds rest c lo hi
      (hmem c (List.mem_cons_self c rest)).1
      (hmem c (List.mem_cons_self c rest)).2
      (fun x hx => hmem x (List.mem_cons_of_mem c hx)) d hd

/-- C6 counterexample: a duration change does not clip the stored cuts.
With stored cut `{50,55}` and the media duration dropping from 60 to 30,
`onMeta` leaves the cut set unchanged, so an interval now exceeds the media
duration instead of being clipped against it. -/
theorem onMeta_no_clip_cex :
    (onMeta 30 (EditorState.mk 60 [Cut.mk 50 55] 0 60 0 5)).cuts = [Cut.mk 50 55]
    ∧ (onMeta 30 (EditorState.mk 60 [Cut.mk 50 55] 0 60 0 5)).duration = 30
    ∧ ¬(∀ c ∈ (onMeta 30 (EditorState.mk 60 [Cut.mk 50 55] 0 60 0 5)).cuts,
        c.e ≤ (onMeta 30 (EditorState.mk 60 [Cut.mk 50 55] 0 60 0 5)).duration) := by
  refine ⟨rfl, rfl, ?_⟩
  intro h
  have := h (Cut.mk 50 55) (by simp [onMeta])
  rw [show (onMeta 30 (EditorState.mk 60 [Cut.mk 50 55] 0 60 0 5)).duration = 30 from rfl]
    at this
  norm_num at this

/-- C6 (amended). `addCut` and `removeCut` preserve the bound
`0 ≤ s ∧ e ≤ duration` on every stored interval (the drag handlers clamp the
selection into `[0, duration]`); but when the media duration changes,
`onMeta` leaves the stored intervals unchanged — they are not clipped
against the new duration; instead, loading new media discards the whole cut
set. -/
theorem editor_cut_bounds (st : EditorState) (d : ℚ) (i : ℕ)
    (hb : ∀ c ∈ st.cuts, 0 ≤ c.s ∧ c.e ≤ st.duration)
    (hs1 : 0 ≤ st.selStart) (hs2 : st.selEnd ≤ st.duration) :
    (∀ c ∈ addCut st, 0 ≤ c.s ∧ c.e ≤ st.duration)
    ∧ (∀ c ∈ removeCut st i, 0 ≤ c.s ∧ c.e ≤ st.duration)
    ∧ (onMeta d st).cuts = st.cuts
    ∧ (loadNewMedia st).cuts = [] := by
  refine ⟨?_, ?_, rfl, rfl⟩
  · rw [addCut]
    by_cases h1 : st.selEnd - st.selStart < 1 / 20
    · rw [if_pos h1]
      exact hb
    · rw [if_neg h1]
      by_cases h2 : st.cuts.any (fun c =>
          decide (|c.s - st.selStart| < 1 / 10 ∧ |c.e - st.selEnd| < 1 / 10))
      · rw [if_pos h2]
        exact hb
      · rw [if_neg h2]
        refine normalizeCuts_bounds ?_
        intro c hc
        rcases List.mem_append.mp hc with hc | hc
        · exact hb c hc
        · rw [List.mem_singleton] at hc
          subst hc
          exact ⟨hs1, hs2⟩
  · rw [removeCut]
    refine normalizeCuts_bounds ?_
    intro c hc
    exact hb c (List.mem_of_mem_eraseIdx hc)

/-- Witness for C6 (amended): one stored cut `{10,15}`, duration 60,
selection `[20, 25]`, removal index 0. -/
theorem editor_cut_bounds_witness :
    (∀ c ∈ addCut (EditorState.mk 60 [Cut.mk 10 15] 0 60 20 25), 0 ≤ c.s ∧ c.e ≤ 60)
    ∧ (onMeta 30 (EditorState.mk 60 [Cut.mk 10 15] 0 60 20 25)).cuts = [Cut.mk 10 15] := by
  have h := editor_cut_bounds (EditorState.mk 60 [Cut.mk 10 15] 0 60 20 25) 30 0
    (by decide) (by decide) (by decide)
  exact ⟨h.1, h.2.2.1⟩

/-- A sorted disjoint chain is sorted for the comparator `normalizeCuts` and
`generateFFmpegFilter` use. -/
theorem disjFrom_sorted {L : ℚ} {l : List Cut} (h : DisjFrom L l) :
    List.Pairwise cutLE l := by
  induction l generalizing L with
  | nil => exact List.Pairwise.nil
  | cons c t ih =>
    rcases disjFrom_cons.mp h with ⟨_, h2, h3⟩
    refine List.Pairwise.cons ?_ (ih h3)
    intro d hd
    have := (disjFrom_mem_lb h3 d hd).1
    show c.s ≤ d.s
    linarith

/-- Segment walk of `generateFFmpegFilter`: emit `[lastEnd, cut.s]` whenever
the next cut starts past `lastEnd`, advance `lastEnd` to
`max(lastEnd, cut.e)`, and close with `[lastEnd, duration]` when content
remains. -/
def segmentsGo (duration : ℚ) : ℚ → List Cut → List Cut
  | lastEnd, [] => if lastEnd < duration then [Cut.mk lastEnd duration] else []
  | lastEnd, c :: rest =>
    if lastEnd < c.s then Cut.mk lastEnd c.s :: segmentsGo duration (max lastEnd c.e) rest
    else segmentsGo duration (max lastEnd c.e) rest

/-- The segments-to-keep computed by `generateFFmpegFilter` (which sorts the
received cuts by start before walking them). -/
def segmentsToKeep (cuts : List Cut) (duration : ℚ) : List Cut :=
  segmentsGo duration 0 (sortCuts cuts)

/-- Outcome of the export `POST` handler: a plain copy of the original media
when the cut list is empty, otherwise a re-encode that concatenates the
segments to keep. -/
inductive ExportPlan where
  | copy : ExportPlan
  | encode : List Cut → ExportPlan
deriving DecidableEq, Repr

/-- Dispatch of the export `POST` handler on the received cut list. -/
def exportPlan (cuts : List Cut) (duration : ℚ) : ExportPlan :=
  if cuts = [] then ExportPlan.copy else ExportPlan.encode (segmentsToKeep cuts duration)

/-- The segment walk emits exactly the maximal uncovered half-open
subintervals of `[lastEnd, duration)`, in ascending order. -/
theorem segmentsGo_spec {duration : ℚ} : ∀ (cuts : List Cut) (lastEnd : ℚ),
    DisjFrom lastEnd cuts → (∀ c ∈ cuts, c.e ≤ duration) →
    DisjFrom lastEnd (segmentsGo duration lastEnd cuts)
    ∧ ∀ x, (∃ seg ∈ segmentsGo duration lastEnd cuts, seg.s ≤ x ∧ x < seg.e)
        ↔ (lastEnd ≤ x ∧ x < duration ∧ ∀ c ∈ cuts, ¬(c.s ≤ x ∧ x < c.e)) := by
  intro cuts
  induction cuts with
  | nil =>
    intro lastEnd _ _
    by_cases hl : lastEnd < duration
    · rw [show segmentsGo duration lastEnd [] = [Cut.mk lastEnd duration] from by
        rw [segmentsGo, if_pos hl]]
      constructor
      · exact disjFrom_cons.mpr ⟨le_refl _, hl, disjFrom_nil _⟩
      · intro x
        simp only [List.mem_singleton, List.not_mem_nil, false_implies, implies_true,
          and_true]
        constructor
        · rintro ⟨seg, rfl, hs⟩
          exact ⟨hs.1, hs.2⟩
        · rintro ⟨hx1, hx2⟩
          exact ⟨Cut.mk lastEnd duration, rfl, hx1, hx2⟩
    · rw [show segmentsGo duration lastEnd [] = [] from by rw [segmentsGo, if_neg hl]]
      refine ⟨disjFrom_nil _, fun x => ?_⟩
      simp only [List.not_mem_nil, false_and, exists_const, exists_false, false_iff,
        not_and]
      intro hx1 hx2
      exfalso
      exact hl (lt_of_le_of_lt hx1 hx2)
  | cons c rest ih =>
    intro lastEnd h hbnd
    rcases disjFrom_cons.mp h with ⟨h1, h2, h3⟩
    have hmax : max lastEnd c.e = c.e := max_eq_right (by linarith)
    have hcd : c.e ≤ duration := hbnd c (List.mem_cons_self c rest)
    have hbnd₂ : ∀ d ∈ rest, d.e ≤ duration :=
      fun d hd => hbnd d (List.mem_cons_of_mem c hd)
    obtain ⟨ihD, ihF⟩ := ih c.e (hmax ▸ h3) hbnd₂
    by_cases hl : lastEnd < c.s
    · rw [show segmentsGo duration lastEnd (c :: rest)
          = Cut.mk lastEnd c.s :: segmentsGo duration c.e rest from by
        rw [segmentsGo, if_pos hl, hmax]]
      constructor
      · refine disjFrom_cons.mpr ⟨le_refl _, hl, ?_⟩
        refine disjFrom_raise ihD ?_
        intro d hd
        have := (disjFrom_mem_lb ihD d hd).1
        linarith
      · intro x
        constructor
        · rintro ⟨seg, hseg, hx1, hx2⟩
          rcases List.mem_cons.mp hseg with rfl | hseg₂
          · refine ⟨hx1, lt_of_lt_of_le hx2 (by linarith), ?_⟩
            intro d hd
            rcases List.mem_cons.mp hd with rfl | hd₂
            · rintro ⟨ha, _⟩
              exact absurd (lt_of_le_of_lt ha hx2) (lt_irrefl _)
            · rintro ⟨ha, _⟩
              have := (disjFrom_mem_lb h3 d hd₂).1
              have hxc : x < c.s := hx2
              linarith
          · have := (ihF x).mp ⟨seg, hseg₂, hx1, hx2⟩
            refine ⟨by linarith [this.1], this.2.1, ?_⟩
            intro d hd
            rcases List.mem_cons.mp hd with rfl | hd₂
            · rintro ⟨_, hb⟩
              linarith [this.1]
            · exact this.2.2 d hd₂
        · rintro ⟨hx1, hx2, hx3⟩
          by_cases hxc : x < c.s
          · exact ⟨Cut.mk lastEnd c.s, List.mem_cons_self _ _, hx1, hxc⟩
          · have hxce : c.e ≤ x := by
              by_contra hcon
              push_neg at hcon
              exact hx3 c (List.mem_cons_self c rest) ⟨le_of_not_lt hxc, hcon⟩
            obtain ⟨seg, hseg, hxs⟩ := (ihF x).mpr
              ⟨hxce, hx2, fun d hd => hx3 d (List.mem_cons_of_mem c hd)⟩
            exact ⟨seg, List.mem_cons_of_mem _ hseg, hxs⟩
    · rw [show segmentsGo duration lastEnd (c :: rest)
          = segmentsGo duration c.e rest from by
        rw [segmentsGo, if_neg hl, hmax]]
      have hle : lastEnd = c.s := le_antisymm h1 (le_of_not_lt hl)
      constructor
      · refine disjFrom_raise ihD ?_
        intro d hd
        have := (disjFrom_mem_lb ihD d hd).1
        linarith
      · intro x
        rw [ihF x]
        constructor
        · rintro ⟨hx1, hx2, hx3⟩
          refine ⟨by linarith, hx2, ?_⟩
          intro d hd
          rcases List.mem_cons.mp hd with rfl | hd₂
          · rintro ⟨_, hb⟩
            linarith
          · exact hx3 d hd₂
        · rintro ⟨hx1, hx2, hx3⟩
          have hxce : c.e ≤ x := by
            by_contra hcon
            push_neg at hcon
            refine hx3 c (List.mem_cons_self c rest) ⟨?_, hcon⟩
            linarith
          exact ⟨hxce, hx2, fun d hd => hx3 d (List.mem_cons_of_mem c hd)⟩

/-- C8. For a sorted, disjoint cut list bounded by `[0, duration]`, the
export pipeline's segments-to-keep are exactly the complement of the cut set
within `[0, duration)`: the maximal uncovered half-open subintervals, in
ascending order with empty segments omitted; and an empty cut list makes the
`POST` handler produce a passthrough copy with no filter applied. -/
theorem export_segments (cuts : List Cut) (duration : ℚ)
    (hd : DisjFrom 0 cuts) (hb : ∀ c ∈ cuts, c.e ≤ duration) :
    (cuts = [] → exportPlan cuts duration = ExportPlan.copy)
    ∧ (cuts ≠ [] →
        exportPlan cuts duration = ExportPlan.encode (segmentsToKeep cuts duration))
    ∧ DisjFrom 0 (segmentsToKeep cuts duration)
    ∧ ∀ x, (∃ seg ∈ segmentsToKeep cuts duration, seg.s ≤ x ∧ x < seg.e)
        ↔ (0 ≤ x ∧ x < duration ∧ ∀ c ∈ cuts, ¬(c.s ≤ x ∧ x < c.e)) := by
  have hsort : sortCuts cuts = cuts :=
    List.Sorted.insertionSort_eq (disjFrom_sorted hd)
  have hgo := segmentsGo_spec cuts 0 hd hb
  refine ⟨fun h => by rw [exportPlan, if_pos h], fun h => by rw [exportPlan, if_neg h],
    ?_, ?_⟩
  · rw [segmentsToKeep, hsort]
    exact hgo.1
  · intro x
    rw [segmentsToKeep, hsort]
    exact hgo.2 x

/-- Witness for C8: single cut `{10,15}`, duration 60, sample point 20. -/
theorem export_segments_witness :
    (∃ seg ∈ segmentsToKeep [Cut.mk 10 15] 60, seg.s ≤ 20 ∧ 20 < seg.e)
      ↔ (0 ≤ (20 : ℚ) ∧ (20 : ℚ) < 60
          ∧ ∀ c ∈ [Cut.mk 10 15], ¬(c.s ≤ 20 ∧ 20 < c.e)) :=
  (export_segments [Cut.mk 10 15] 60 (by decide) (by decide)).2.2.2 20

/-- `filename.includes('..')`: two consecutive dots somewhere in the name. -/
def containsDotDot : List Char → Bool
  | c1 :: c2 :: rest =>
    (decide (c1 = '.') && decide (c2 = '.')) || containsDotDot (c2 :: rest)
  | _ => false

/-- `filename.includes('/')`: a path separator somewhere in the name. -/
def containsSlash (l : List Char) : Bool := l.contains '/'

/-- Responses of the artifact-retrieval `GET` handler. -/
inductive DlResponse where
  | badRequest
  | notFound
  | fileAttachment (content : List ℕ)
deriving DecidableEq, Repr

/-- The artifact-retrieval `GET` handler over an abstract export store: the
traversal check runs before any file access; only then is the store
consulted and the bytes returned as an attachment. -/
def downloadGet (filename : List Char)
    (store : List Char → Option (List ℕ)) : DlResponse :=
  if containsDotDot filename || containsSlash filename then DlResponse.badRequest
  else
    match store filename with
    | none => DlResponse.notFound
    | some content => DlResponse.fileAttachment content

/-- C9. A filename containing a path separator or a parent-directory marker
is answered with a client error without reading any file (the response does
not depend on the store at all); a clean filename naming an existing
exported file is answered with the binary artifact as an attachment. -/
theorem download_route (filename : List Char)
    (store store₂ : List Char → Option (List ℕ)) :
    ((containsDotDot filename || containsSlash filename) = true →
      downloadGet filename store = DlResponse.badRequest
      ∧ downloadGet filename store = downloadGet filename store₂)
    ∧ (containsDotDot filename = false → containsSlash filename = false →
      ∀ content, store filename = some content →
        downloadGet filename store = DlResponse.fileAttachment content) := by
  constructor
  · intro h
    constructor
    · rw [downloadGet, if_pos h]
    · rw [downloadGet, if_pos h, downloadGet, if_pos h]
  · intro h1 h2 content hst
    rw [downloadGet, if_neg (by rw [h1, h2]; exact Bool.false_ne_true), hst]

/-- Witness for C9: the name `..` is rejected regardless of the store; the
name `ab` naming a stored artifact is returned as an attachment. -/
theorem download_route_witness :
    downloadGet [Char.ofNat 46, Char.ofNat 46] (fun _ => none) = DlResponse.badRequest
    ∧ downloadGet [Char.ofNat 97, Char.ofNat 98]
        (fun n => if n = [Char.ofNat 97, Char.ofNat 98] then some [1, 2] else none)
        = DlResponse.fileAttachment [1, 2] :=
  ⟨((download_route [Char.ofNat 46, Char.ofNat 46] (fun _ => none) (fun _ => none)).1
      (by decide)).1,
    (download_route [Char.ofNat 97, Char.ofNat 98]
        (fun n => if n = [Char.ofNat 97, Char.ofNat 98] then some [1, 2] else none)
        (fun _ => none)).2
      (by decide) (by decide) [1, 2] (by decide)⟩
